import Mathlib

/-!
Verification of the analyzer-pass orchestration core of this repository.

Part A embeds, directly from the source of package `analysisinternal`
(`ZeroValue`, `IsZeroValue`, `TypeExpr`), the zero-value helpers.
Part B models the checker driver (scheduler, result cache, pass executor,
diagnostic and fix collector, fact store) from the specification, since the
checker implementation itself is not part of this excerpt: only its tests
(`TestApplyFixes`, `TestRunDespiteErrors`) and callers are.
-/

namespace GoModel

/-- Token kinds used by `ast.BasicLit` in the embedded helpers
(`token.INT`, `token.STRING`). -/
inductive TokKind where
  | INT
  | STRING
deriving DecidableEq, Repr

/-- Unary operator kinds used by the embedded helpers (`token.MUL`). -/
inductive OpKind where
  | MUL
deriving DecidableEq, Repr

mutual

/-- Model of the `go/ast` expressions produced by `ZeroValue` and `TypeExpr`:
basic literals, identifiers, selector expressions, unary (star) expressions,
array/map/chan/func types and composite literals. -/
inductive Expr where
  | basicLit (kind : TokKind) (value : String)
  | ident (name : String)
  | selectorExpr (x : Expr) (sel : String)
  | unaryExpr (op : OpKind) (x : Expr)
  | arrayType (len : Option Expr) (elt : Expr)
  | mapType (key value : Expr)
  | chanType (dir : Nat) (value : Expr)
  | funcType (params results : List Field)
  | compositeLit (type : Expr)

/-- Model of `ast.Field`: optional names plus a type expression. -/
inductive Field where
  | mk (names : List String) (type : Expr)

end

/-- Model of `types.Package`: identity is represented by path, with the
display name carried alongside (`Pkg.name`, `Pkg.path`). -/
structure Pkg where
  name : String
  path : String
deriving DecidableEq, Repr

/-- Model of the import declarations of the `*ast.File` passed to `TypeExpr`:
each import has an optional local name and a path, as consulted by
`astutil.Imports`. -/
structure ImportDecl where
  localName : Option String
  path : String
deriving DecidableEq, Repr

/-- Model of the `*ast.File` argument of `TypeExpr`: only its import table is
consulted by the embedded code. -/
structure GoFile where
  imports : List ImportDecl
deriving DecidableEq, Repr

/-- The `types.BasicInfo` flag `IsBoolean`. -/
def IsBoolean : Nat := 1

/-- The `types.BasicInfo` flag `IsInteger`. -/
def IsInteger : Nat := 2

/-- The `types.BasicInfo` flag `IsUnsigned`. -/
def IsUnsigned : Nat := 4

/-- The `types.BasicInfo` flag `IsFloat`. -/
def IsFloat : Nat := 8

/-- The `types.BasicInfo` flag `IsComplex`. -/
def IsComplex : Nat := 16

/-- The `types.BasicInfo` flag `IsString`. -/
def IsString : Nat := 32

/-- The `types.BasicInfo` mask `IsNumeric = IsInteger | IsFloat | IsComplex`. -/
def IsNumeric : Nat := IsInteger ||| IsFloat ||| IsComplex

/-- The `types.BasicKind` value `types.UnsafePointer`. -/
def UnsafePointerKind : Nat := 18

/-- Model of `go/types.Type` restricted to the constructors inspected by
`ZeroValue` and `TypeExpr`.  A basic type carries its kind, its info flags and
its name; named types carry the object name, the object package (none for
universe scope) and the underlying type; struct and interface types carry the
rendering of `t.String()` used by `TypeExpr`. -/
inductive Ty where
  | basic (kind : Nat) (info : Nat) (name : String)
  | chan (dir : Nat) (elem : Ty)
  | iface (repr : String)
  | map (key elem : Ty)
  | pointer (elem : Ty)
  | signature (params results : List (String × Ty))
  | slice (elem : Ty)
  | array (len : Int) (elem : Ty)
  | strct (repr : String)
  | named (objName : String) (objPkg : Option Pkg) (underlying : Ty)

/-- Embeds the import-alias scan in the `*types.Named` case of `TypeExpr`:
start from the package's own name; every import of the object's package that
declares a non-empty local name overrides it, the last one winning, exactly as
the nested loop over `astutil.Imports` does. -/
def namedPkgName (f : GoFile) (objPkg : Pkg) : String :=
  f.imports.foldl
    (fun acc cand =>
      if cand.path = objPkg.path then
        match cand.localName with
        | some n => if n ≠ "" then n else acc
        | none => acc
      else acc)
    objPkg.name

mutual

/-- Embedding of `analysisinternal.TypeExpr` (src/go/analysis/passes/nilfunc/
nilfunc_test.go, packaged code of `analysisinternal`): renders a type as an
AST expression, returning `none` where the source returns `nil`. -/
def TypeExpr (f : GoFile) (pkg : Pkg) : Ty → Option Expr
  | .basic kind _ name =>
      if kind = UnsafePointerKind then
        some (.selectorExpr (.ident "unsafe") "Pointer")
      else
        some (.ident name)
  | .pointer elem =>
      match TypeExpr f pkg elem with
      | none => none
      | some x => some (.unaryExpr .MUL x)
  | .array len elem =>
      match TypeExpr f pkg elem with
      | none => none
      | some elt => some (.arrayType (some (.basicLit .INT (toString len))) elt)
  | .slice elem =>
      match TypeExpr f pkg elem with
      | none => none
      | some elt => some (.arrayType none elt)
  | .map key elem =>
      match TypeExpr f pkg key, TypeExpr f pkg elem with
      | some k, some v => some (.mapType k v)
      | _, _ => none
  | .chan dir elem =>
      match TypeExpr f pkg elem with
      | none => none
      | some v => some (.chanType dir v)
  | .signature params results =>
      match typeExprParams f pkg params, typeExprResults f pkg results with
      | some ps, some rs => some (.funcType ps rs)
      | _, _ => none
  | .named objName objPkg _ =>
      match objPkg with
      | none => some (.ident objName)
      | some opkg =>
          if opkg = pkg then
            some (.ident objName)
          else
            let pkgName := namedPkgName f opkg
            if pkgName = "." then
              some (.ident objName)
            else
              some (.selectorExpr (.ident pkgName) objName)
  | .strct repr => some (.ident repr)
  | .iface repr => some (.ident repr)

/-- The parameter loop of the `*types.Signature` case of `TypeExpr`: each
parameter becomes a field carrying the parameter's name; a `nil` rendering of
any component makes the whole signature render `nil`. -/
def typeExprParams (f : GoFile) (pkg : Pkg) : List (String × Ty) → Option (List Field)
  | [] => some []
  | (n, t) :: rest =>
      match TypeExpr f pkg t with
      | none => none
      | some p =>
          match typeExprParams f pkg rest with
          | none => none
          | some ps => some (.mk [n] p :: ps)

/-- The result loop of the `*types.Signature` case of `TypeExpr`: each result
becomes an unnamed field; a `nil` rendering of any component makes the whole
signature render `nil`. -/
def typeExprResults (f : GoFile) (pkg : Pkg) : List (String × Ty) → Option (List Field)
  | [] => some []
  | (_, t) :: rest =>
      match TypeExpr f pkg t with
      | none => none
      | some r =>
          match typeExprResults f pkg rest with
          | none => none
          | some rs => some (.mk [] r :: rs)

end

/-- Result type of `ZeroValue`: an expression, the `nil` return, or the
`panic("unknown basic type")` of the default basic case. -/
inductive ZeroValueResult where
  | expr (e : Expr)
  | nilResult
  | panicked (msg : String)

/-- The `under` computation at the head of `ZeroValue`: a `*types.Named` type
is unwrapped to its underlying type, every other type stands for itself. -/
def underTy : Ty → Ty
  | .named _ _ u => u
  | t => t

/-- Embedding of `analysisinternal.ZeroValue`: unwrap one `*types.Named`
layer (`underTy`), then switch on the underlying type; basic types yield `0`,
`false` or `""` according to the info flags (numeric checked first, then
boolean, then string) and panic otherwise; chan, interface, map, pointer,
signature, slice and array types yield the identifier `nil`; structs yield a
composite literal of `TypeExpr(typ)` (the original type), or Go `nil` when
that renders `nil`; all other shapes yield Go `nil`. -/
def ZeroValue (f : GoFile) (pkg : Pkg) (typ : Ty) : ZeroValueResult :=
  match underTy typ with
  | .basic _ info _ =>
      if info &&& IsNumeric ≠ 0 then
        .expr (.basicLit .INT "0")
      else if info &&& IsBoolean ≠ 0 then
        .expr (.ident "false")
      else if info &&& IsString ≠ 0 then
        .expr (.basicLit .STRING "\"\"")
      else
        .panicked "unknown basic type"
  | .chan _ _ => .expr (.ident "nil")
  | .iface _ => .expr (.ident "nil")
  | .map _ _ => .expr (.ident "nil")
  | .pointer _ => .expr (.ident "nil")
  | .signature _ _ => .expr (.ident "nil")
  | .slice _ => .expr (.ident "nil")
  | .array _ _ => .expr (.ident "nil")
  | .strct _ =>
      match TypeExpr f pkg typ with
      | none => .nilResult
      | some texpr => .expr (.compositeLit texpr)
  | _ => .nilResult

/-- Embedding of `analysisinternal.IsZeroValue`: a basic literal is a zero
value when its value is `0` or `""`; an identifier when it is `nil` or
`false`; every other expression shape is not. -/
def IsZeroValue : Expr → Bool
  | .basicLit _ v => v == "0" || v == "\"\""
  | .ident n => n == "nil" || n == "false"
  | _ => false

end GoModel

namespace Checker

/-- Modelled from the spec: AnalyzerDescriptor (§3); the checker
implementation (`go/analysis`, `go/analysis/internal/checker`) is absent from
the excerpt, only its tests appear.  An analyzer has a unique name, an ordered
sequence of required analyzers (as indices into the registry), the
run-despite-front-end-errors flag, and a run function; the run function is
represented by the diagnostics it emits and the error it returns on each
unit. -/
structure AnalyzerDescriptor where
  name : String
  requires : List Nat
  runDespiteErrors : Bool
  runDiags : Nat → List String
  runErr : Nat → Option String

/-- Modelled from the spec: Unit (§3), reduced to what the driver consults: a
stable identifier and whether front-end (syntax/type) errors were recorded
while building it. -/
structure UnitInfo where
  uid : Nat
  hasErrors : Bool
deriving DecidableEq, Repr

/-- The requirement graph of a registry: the required indices of analyzer
`a`, empty outside the registry. -/
def requiresOf (reg : List AnalyzerDescriptor) (a : Nat) : List Nat :=
  match reg.get? a with
  | some ad => ad.requires
  | none => []

/-- One requirement edge: `b` is directly required by `a`. -/
def Requires (req : Nat → List Nat) (a b : Nat) : Prop := b ∈ req a

/-- `a` transitively-reflexively reaches `b` through requirement edges. -/
def Reaches (req : Nat → List Nat) : Nat → Nat → Prop :=
  Relation.ReflTransGen (Requires req)

/-- `a` reaches `b` through at least one requirement edge. -/
def ReachesPlus (req : Nat → List Nat) : Nat → Nat → Prop :=
  Relation.TransGen (Requires req)

/-- A requirement graph is acyclic when no node reaches itself through a
nonempty requirement path. -/
def Acyclic (req : Nat → List Nat) : Prop := ∀ a, ¬ ReachesPlus req a a

/-- A list is topologically ordered for `req` when, wherever it splits around
an element, all of that element's requirements already occur to the left. -/
def TopoOrdered (req : Nat → List Nat) (l : List Nat) : Prop :=
  ∀ l1 x l2, l = l1 ++ x :: l2 → ∀ r ∈ req x, r ∈ l1

/-- An execution order built left to right: each appended analyzer has all of
its requirements among the analyzers already placed. -/
inductive TopoSorted (req : Nat → List Nat) : List Nat → Prop
  | nil : TopoSorted req []
  | snoc (l : List Nat) (x : Nat) : TopoSorted req l → (∀ r ∈ req x, r ∈ l) →
      TopoSorted req (l ++ [x])

/-- The invariant of the currently-visiting marker stack: each stack entry
directly requires the entry pushed above it, and the top entry directly
requires the node now being visited. -/
def VisChain (req : Nat → List Nat) : List Nat → Nat → Prop
  | [], _ => True
  | v :: rest, a => a ∈ req v ∧ VisChain req rest v

/-- Sequencing helper for the depth-first traversal: run `step` on each
listed requirement in order, threading the accumulated order through and
propagating the first error. -/
def visitListAux (step : Nat → List Nat → List Nat → Except String (List Nat)) :
    List Nat → List Nat → List Nat → Except String (List Nat)
  | [], _, acc => .ok acc
  | r :: rs, vis, acc =>
      match step r vis acc with
      | .error e => .error e
      | .ok acc1 => visitListAux step rs vis acc1

/-- Modelled from the spec: the dependency resolver's depth-first traversal
(§4.1); the scheduler implementation is absent from the excerpt.  A node
already in the accumulated order is skipped; a node carrying the
currently-visiting marker signals a cycle, a fatal configuration error; an
unvisited node is marked, its requirements are visited first, and it is
appended after them.  The fuel argument bounds the recursion depth; the
driver supplies enough for any graph over the registry. -/
def visit (req : Nat → List Nat) : Nat → Nat → List Nat → List Nat → Except String (List Nat)
  | 0, _, _, _ => .error "fuel exhausted"
  | Nat.succ fuel, a, vis, acc =>
      if a ∈ acc then .ok acc
      else if a ∈ vis then .error "cycle in requirement graph"
      else
        match visitListAux (fun r v ac => visit req fuel r v ac) (req a) (a :: vis) acc with
        | .error e => .error e
        | .ok acc2 => .ok (acc2 ++ [a])

/-- Modelled from the spec: the scheduler (§4.1): visit each requested root
in order over a registry of `n` analyzers, producing the closure in an order
that places every analyzer after its requirements, or the first configuration
error. -/
def schedule (req : Nat → List Nat) (n : Nat) : List Nat → List Nat → Except String (List Nat)
  | [], acc => .ok acc
  | r :: rs, acc =>
      match visit req (n + 1) r [] acc with
      | .error e => .error e
      | .ok acc1 => schedule req n rs acc1

/-- Modelled from the spec: the outcome of one (analyzer, unit) pass (§4.2):
either skipped because of front-end errors, or completed with the diagnostics
the run function emitted and its error result. -/
inductive PassOutcome where
  | skipped
  | completed (diags : List String) (err : Option String)
deriving DecidableEq, Repr

/-- The diagnostics recorded for an outcome: none for a skipped pass. -/
def outcomeDiags : PassOutcome → List String
  | .skipped => []
  | .completed ds _ => ds

/-- Modelled from the spec: the pass executor (§4.2); its implementation is
absent from the excerpt.  If the unit carries front-end errors and the
analyzer did not opt in via RunDespiteErrors, execution is skipped and the
run function does not execute; otherwise the run function executes and its
diagnostics and error are collected.  An index outside the registry is a
configuration failure recorded as an errored pass. -/
def runPass (reg : List AnalyzerDescriptor) (a : Nat) (u : UnitInfo) : PassOutcome :=
  match reg.get? a with
  | none => .completed [] (some "no such analyzer")
  | some ad =>
      if u.hasErrors ∧ ¬ ad.runDespiteErrors then .skipped
      else .completed (ad.runDiags u.uid) (ad.runErr u.uid)

/-- Modelled from the spec: the mutable run-wide state (§4.3, §5): the result
cache keyed by (analyzer, unit) — `none` marks a computation in progress, the
single-flight discipline — the ordered log of pass computations actually
performed, and the run-wide diagnostic collection. -/
structure RunState where
  cache : List ((Nat × Nat) × Option PassOutcome)
  execLog : List ((Nat × Nat) × PassOutcome)
  diags : List String

/-- Replaces the recorded outcome of key `k` in the cache, leaving every
other key untouched. -/
def updateCache (k : Nat × Nat) (o : PassOutcome) :
    List ((Nat × Nat) × Option PassOutcome) → List ((Nat × Nat) × Option PassOutcome)
  | [] => []
  | (k2, v) :: rest =>
      if k2 = k then (k2, some o) :: rest else (k2, v) :: updateCache k o rest

/-- Sequencing helper for dependency requests: request each listed analyzer
in order, threading the run state. -/
def getDepsAux (step : Nat → RunState → RunState) : List Nat → RunState → RunState
  | [], st => st
  | r :: rs, st => getDepsAux step rs (step r st)

/-- Modelled from the spec: the result cache's getOrCompute (§4.3); its
implementation is absent from the excerpt.  A key already present in the
cache — completed, or in progress for a re-entrant request — computes
nothing; an absent key is first marked in progress, its analyzer's
requirements are requested, then its pass executes exactly once and the
outcome is recorded in the cache, the execution log and the diagnostic
collection. -/
def getOrCompute (reg : List AnalyzerDescriptor) (u : UnitInfo) :
    Nat → Nat → RunState → RunState
  | 0, _, st => st
  | Nat.succ fuel, a, st =>
      match List.lookup (a, u.uid) st.cache with
      | some _ => st
      | none =>
          let st1 : RunState := { st with cache := ((a, u.uid), none) :: st.cache }
          let st2 := getDepsAux (fun r s => getOrCompute reg u fuel r s) (requiresOf reg a) st1
          let outcome := runPass reg a u
          { cache := updateCache (a, u.uid) outcome st2.cache
            execLog := st2.execLog ++ [((a, u.uid), outcome)]
            diags := st2.diags ++ outcomeDiags outcome }

/-- Modelled from the spec: the driver's data flow (§2): for every unit and
every analyzer of the scheduled order, request the (analyzer, unit) result
through the cache. -/
def execAll (reg : List AnalyzerDescriptor) (order : List Nat)
    (units : List UnitInfo) (st : RunState) : RunState :=
  units.foldl
    (fun s u => order.foldl (fun s2 a => getOrCompute reg u (reg.length + 1) a s2) s)
    st

/-- Modelled from the spec: a target pattern (§6) either resolves to units or
fails to load or match. -/
inductive Pattern where
  | resolves (us : List UnitInfo)
  | invalid (name : String)
deriving DecidableEq, Repr

/-- Modelled from the spec: pattern loading by the driver shell (§6, §7): any
pattern that fails to load or match is a configuration error aborting the run
before any analysis. -/
def loadPatterns : List Pattern → Except String (List UnitInfo)
  | [] => .ok []
  | .invalid nm :: _ => .error (nm ++ " failed to load")
  | .resolves us :: rest =>
      match loadPatterns rest with
      | .error e => .error e
      | .ok more => .ok (us ++ more)

/-- The observable result of a run: exit status, the diagnostics printed, and
the log of pass computations with their outcomes. -/
structure RunResult where
  exitCode : Nat
  diags : List String
  execLog : List ((Nat × Nat) × PassOutcome)
deriving DecidableEq, Repr

/-- Whether the final run state carries a failure: a reported diagnostic, a
pass whose run function returned an error, or front-end errors surfaced
because an analyzer was skipped on an errored unit (§7). -/
def stateFails (st : RunState) : Bool :=
  !st.diags.isEmpty ||
    st.execLog.any (fun kv =>
      match kv.2 with
      | .completed _ (some _) => true
      | .skipped => true
      | .completed _ none => false)

/-- Modelled from the spec: Run(patterns, analyzers) → exit status (§6); the
driver implementation is absent from the excerpt, only its tests.  A pattern
that fails to load or match, or an overall empty match, exits 1 before any
analysis; a cycle among the requested analyzers exits 1 before any pass; an
analysis run exits 1 exactly when a diagnostic was reported, a pass failed,
or front-end errors were surfaced, and 0 otherwise. -/
def checkerRun (reg : List AnalyzerDescriptor) (pats : List Pattern) : RunResult :=
  match loadPatterns pats with
  | .error _ => ⟨1, [], []⟩
  | .ok units =>
      if units.isEmpty then ⟨1, [], []⟩
      else
        match schedule (requiresOf reg) reg.length (List.range reg.length) [] with
        | .error _ => ⟨1, [], []⟩
        | .ok order =>
            let st := execAll reg order units ⟨[], [], []⟩
            ⟨if stateFails st then 1 else 0, st.diags, st.execLog⟩

/-- A two-analyzer registry whose analyzers require each other: the concrete
cyclic configuration exercising the scheduler's failure path. -/
def cyclicRegistry : List AnalyzerDescriptor :=
  [⟨"a", [1], false, fun _ => [], fun _ => none⟩,
   ⟨"b", [0], false, fun _ => [], fun _ => none⟩]

/-- Modelled from the spec: TextEdit (§3): a source position range plus
replacement bytes; the diagnostic and fix collector is absent from the
excerpt, only TestApplyFixes. -/
structure TextEdit where
  pos : Nat
  endPos : Nat
  newText : List Char
deriving DecidableEq, Repr

/-- Modelled from the spec: the overlap relation of the fix collector (§4.4):
edit `e1` overlaps `e2` when `e1` starts no later than `e2` does and `e1`'s
end exceeds `e2`'s start. -/
def OverlapAt (e1 e2 : TextEdit) : Prop :=
  e1.pos ≤ e2.pos /\ e2.pos < e1.endPos

/-- The executable overlap test deciding `OverlapAt`. -/
def overlapCheck (e1 e2 : TextEdit) : Bool :=
  decide (e1.pos ≤ e2.pos) && decide (e2.pos < e1.endPos)

/-- Modelled from the spec: the conflict scan of the fix collector (§4.4):
find two overlapping edits, in either order, returning the pair for the
conflict error. -/
def findConflict : List TextEdit → Option (TextEdit × TextEdit)
  | [] => none
  | e :: rest =>
      match rest.find? (fun e2 => overlapCheck e e2 || overlapCheck e2 e) with
      | some e2 => some (e, e2)
      | none => findConflict rest

/-- Insertion of an edit into a list sorted by start position. -/
def insertEdit (e : TextEdit) : List TextEdit → List TextEdit
  | [] => [e]
  | e2 :: rest =>
      if e.pos ≤ e2.pos then e :: e2 :: rest else e2 :: insertEdit e rest

/-- Modelled from the spec: the sort by start position of the fix collector
(§4.4), as a stable insertion sort. -/
def sortEdits : List TextEdit → List TextEdit
  | [] => []
  | e :: rest => insertEdit e (sortEdits rest)

/-- One edit applied to file content: the bytes before `pos`, then the
replacement, then the bytes from `endPos` on. -/
def applyOne (c : List Char) (e : TextEdit) : List Char :=
  c.take e.pos ++ e.newText ++ c.drop e.endPos

/-- Modelled from the spec: per-file fix application (§4.4): verify that no
two selected edits overlap, failing with the conflicting pair, then apply the
edits in descending start order so earlier offsets stay valid. -/
def applyEditsToContent (content : List Char) (edits : List TextEdit) :
    Except (TextEdit × TextEdit) (List Char) :=
  match findConflict edits with
  | some pr => .error pr
  | none => .ok ((sortEdits edits).foldr (fun e c => applyOne c e) content)

/-- Modelled from the spec: a source file on disk. -/
structure SourceFile where
  fname : String
  content : List Char
deriving DecidableEq, Repr

/-- Modelled from the spec: fix application across files (§4.4, §7): each
file's selected edits are applied all-or-nothing; a conflicting file keeps
its on-disk content, the conflict reported against it, while the other
files' fixes apply independently. -/
def applyFixesToFiles (files : List SourceFile)
    (editsFor : String → List TextEdit) :
    List (SourceFile × Option (TextEdit × TextEdit)) :=
  files.map (fun sf =>
    match applyEditsToContent sf.content (editsFor sf.fname) with
    | .error pr => (sf, some pr)
    | .ok c => (SourceFile.mk sf.fname c, none))

/-- Modelled from the spec and the rename analyzer of TestApplyFixes (the
checker and the tree inspector are absent from the excerpt): a source file as
its sequence of lexical tokens, the identifiers of interest distinguished
from all other text. -/
inductive Tok where
  | ident (s : String)
  | other (s : String)
deriving DecidableEq, Repr

/-- The text of a token. -/
def tokText : Tok → String
  | .ident s => s
  | .other s => s

/-- The file content denoted by a token sequence. -/
def renderToks (ts : List Tok) : List Char :=
  ts.flatMap (fun t => (tokText t).toList)

/-- Modelled from the spec: Diagnostic (§3): position range, message text
and the suggested fix's edits. -/
structure Diagnostic where
  pos : Nat
  endPos : Nat
  message : String
  fixEdits : List TextEdit
deriving DecidableEq, Repr

/-- Modelled from the rename analyzer of TestApplyFixes (its run function is
in the excerpt; the inspector it walks with is not): scan the tokens in
preorder from byte offset `off`; every identifier named `frm` is reported
with a diagnostic spanning it and one suggested edit replacing it by
`toS`. -/
def renameRunFrom (frm toS : String) : List Tok → Nat → List Diagnostic
  | [], _ => []
  | t :: ts, off =>
      let rest := renameRunFrom frm toS ts (off + (tokText t).length)
      match t with
      | .ident s =>
          if s = frm then
            Diagnostic.mk off (off + s.length)
              ("renaming \"" ++ frm ++ "\" to \"" ++ toS ++ "\"")
              [TextEdit.mk off (off + s.length) toS.toList] :: rest
          else rest
      | .other _ => rest

/-- The token rewrite the suggested fixes perform: identifiers named `frm`
become `toS`, every other token is unchanged. -/
def renameTok (frm toS : String) : Tok → Tok
  | .ident s => if s = frm then .ident toS else .ident s
  | .other s => .other s

/-- The fix pipeline of TestApplyFixes at the file level: collect the edits
of all reported diagnostics and apply them to the rendered file content. -/
def applyRenameFixes (frm toS : String) (toks : List Tok) :
    Except (TextEdit × TextEdit) (List Char) :=
  applyEditsToContent (renderToks toks)
    ((renameRunFrom frm toS toks 0).flatMap (fun d => d.fixEdits))

/-- The token sequence of the TestApplyFixes input file
(src/unnamed/part_000): `bar := 12` and `_ = bar` inside func Foo. -/
def testFileToks : List Tok :=
  [.other "package rename\n\nfunc Foo() \x7b\n\t", .ident "bar",
   .other " := 12\n\t_ = ", .ident "bar", .other "\n\x7d\n\n// the end\n"]

/-- Modelled from the spec: Fact keys (§3): the producing analyzer, the
producing unit and the exported symbol. -/
structure FactKey where
  analyzer : Nat
  unit : Nat
  symbol : String
deriving DecidableEq, Repr

/-- Modelled from the spec: the fact store (§4.3, §3): serializable
conclusions keyed by (analyzer, unit, symbol). -/
structure FactStore where
  facts : List (FactKey × String)
deriving DecidableEq, Repr

/-- `b` transitively imports `a`: a nonempty chain of direct imports leads
from `b` to `a`. -/
def TransImports (imp : Nat → List Nat) (b a : Nat) : Prop :=
  ReachesPlus imp b a

/-- Modelled from the spec: the read view of the fact store (§4.3): a pass
for analyzer `x` analyzing unit `b` may read the fact at symbol `sym` of
unit `a` only under its own analyzer and only when `a` lies in `b`'s
transitively imported set, computed as the closure of `b`'s direct imports
over the import graph of `n` units; any read outside that scope is
rejected. -/
def readFact (imp : Nat → List Nat) (n : Nat) (store : FactStore)
    (x b a : Nat) (sym : String) : Option String :=
  match schedule imp n (imp b) [] with
  | .error _ => none
  | .ok reachable =>
      if a ∈ reachable then List.lookup (FactKey.mk x a sym) store.facts
      else none

/-- A skip-by-default analyzer that reports one diagnostic on every unit it
actually analyzes, shaped after the rename analyzer of TestApplyFixes. -/
def renameLikeAnalyzer : AnalyzerDescriptor :=
  ⟨"rename", [], false, fun _ => ["renaming bar to baz"], fun _ => none⟩

/-- The no-op analyzer of TestRunDespiteErrors: it runs despite front-end
errors and reports nothing. -/
def noopAnalyzer : AnalyzerDescriptor :=
  ⟨"noop", [], true, fun _ => [], fun _ => none⟩

/-- A unit carrying front-end (type) errors, like package rderr of
TestRunDespiteErrors. -/
def errUnit : UnitInfo := ⟨0, true⟩

/-- The run-state invariant tying the execution log, the cache and the
diagnostic collection together: no key is computed twice, a key is logged
exactly when its cached outcome is completed, and the diagnostic collection
is the concatenation of the logged outcomes' diagnostics. -/
def StateInv (st : RunState) : Prop :=
  (st.execLog.map Prod.fst).Nodup ∧
  (∀ k, k ∈ st.execLog.map Prod.fst ↔
    ∃ o, List.lookup k st.cache = some (some o)) ∧
  st.diags = st.execLog.flatMap (fun e => outcomeDiags e.2)

/-- Monotonicity of cache steps: keys in progress stay in progress, completed
keys stay completed with the same outcome, and the execution log only
grows. -/
def StateStep (st st2 : RunState) : Prop :=
  (∀ k, List.lookup k st.cache = some none →
    List.lookup k st2.cache = some none) ∧
  (∀ k o, List.lookup k st.cache = some (some o) →
    List.lookup k st2.cache = some (some o)) ∧
  (∃ t, st2.execLog = st.execLog ++ t)

end Checker

open GoModel in
/-- C9: for every type whose underlying type is basic and whose info flags
mark it as neither numeric nor boolean nor string, `ZeroValue` panics with
"unknown basic type"; and whenever one of those flags is set, the panic
branch is unreachable. -/
theorem zeroValue_unknown_basic_panics (f : GoFile) (pkg : Pkg) (typ : Ty)
    (kind info nm : _) (hu : underTy typ = .basic kind info nm) :
    (info &&& IsNumeric = 0 → info &&& IsBoolean = 0 → info &&& IsString = 0 →
      ZeroValue f pkg typ = .panicked "unknown basic type") ∧
    ((info &&& IsNumeric ≠ 0 ∨ info &&& IsBoolean ≠ 0 ∨ info &&& IsString ≠ 0) →
      ∀ msg, ZeroValue f pkg typ ≠ .panicked msg) := by
  constructor
  · intro h1 h2 h3
    unfold ZeroValue
    rw [hu]
    simp [h1, h2, h3]
  · intro hflag msg
    unfold ZeroValue
    rw [hu]
    rcases hflag with h | h | h
    · simp [h]
    · by_cases hn : info &&& IsNumeric = 0 <;> simp [hn, h]
    · by_cases hn : info &&& IsNumeric = 0 <;>
        by_cases hb : info &&& IsBoolean = 0 <;> simp [hn, hb, h]

open GoModel in
/-- Witness for C9: the untyped-nil basic type (info flag `IsUntyped` only)
makes `ZeroValue` panic, while the plain `int` basic type never does. -/
theorem zeroValue_unknown_basic_panics_witness :
    ZeroValue ⟨[]⟩ ⟨"p", "p"⟩ (.basic 25 64 "untyped nil") =
      .panicked "unknown basic type" ∧
    ∀ msg, ZeroValue ⟨[]⟩ ⟨"p", "p"⟩ (.basic 2 2 "int") ≠ .panicked msg :=
  ⟨(zeroValue_unknown_basic_panics ⟨[]⟩ ⟨"p", "p"⟩
      (.basic 25 64 "untyped nil") 25 64 "untyped nil" rfl).1 rfl rfl rfl,
   (zeroValue_unknown_basic_panics ⟨[]⟩ ⟨"p", "p"⟩
      (.basic 2 2 "int") 2 2 "int" rfl).2 (Or.inl (by decide))⟩

open GoModel in
/-- C10: every non-composite-literal expression returned by `ZeroValue` (the
scalar zero values `0`, `false`, `""` and the identifier `nil`) is recognized
by `IsZeroValue`; a struct type makes `ZeroValue` return a composite literal,
which `IsZeroValue` does not recognize, so the round trip fails there. -/
theorem isZeroValue_of_zeroValue (f : GoFile) (pkg : Pkg) :
    (∀ t e, ZeroValue f pkg t = .expr e → (∀ te, e ≠ .compositeLit te) →
      IsZeroValue e = true) ∧
    (∀ r, ZeroValue f pkg (.strct r) = .expr (.compositeLit (.ident r)) ∧
      IsZeroValue (.compositeLit (.ident r)) = false) := by
  constructor
  · intro t e hz hnc
    unfold ZeroValue at hz
    cases ht : underTy t <;> rw [ht] at hz
    case basic kind info nm =>
      by_cases h1 : info &&& IsNumeric = 0
      · by_cases h2 : info &&& IsBoolean = 0
        · by_cases h3 : info &&& IsString = 0
          · simp [h1, h2, h3] at hz
          · simp [h1, h2, h3] at hz
            subst hz
            rfl
        · simp [h1, h2] at hz
          subst hz
          rfl
      · simp [h1] at hz
        subst hz
        rfl
    case chan dir elem =>
      simp at hz
      subst hz
      rfl
    case iface r =>
      simp at hz
      subst hz
      rfl
    case map k v =>
      simp at hz
      subst hz
      rfl
    case pointer elem =>
      simp at hz
      subst hz
      rfl
    case signature ps rs =>
      simp at hz
      subst hz
      rfl
    case slice elem =>
      simp at hz
      subst hz
      rfl
    case array len elem =>
      simp at hz
      subst hz
      rfl
    case strct r =>
      cases htx : TypeExpr f pkg t <;> rw [htx] at hz
      · simp at hz
      · simp at hz
        exact (hnc _ hz.symm).elim
    case named nm opkg u =>
      simp at hz
  · intro r
    exact ⟨by simp [ZeroValue, underTy, TypeExpr], rfl⟩

open GoModel in
/-- Witness for C10: at the slice-of-int type, `ZeroValue` returns the
identifier `nil`, which `IsZeroValue` recognizes. -/
theorem isZeroValue_of_zeroValue_witness : IsZeroValue (.ident "nil") = true :=
  (isZeroValue_of_zeroValue ⟨[]⟩ ⟨"p", "p"⟩).1 (.slice (.basic 2 2 "int"))
    (.ident "nil") rfl (fun _ hte => Expr.noConfusion hte)


namespace Checker

/-- Sequencing a visit step over a requirement list combines the step's
postconditions: the accumulated order is only extended, every listed
requirement ends up in it, every newly added node was off the visiting stack,
topological sortedness is preserved, every new node is reachable from some
listed requirement, and freedom from duplicates is preserved. -/
theorem visitListAux_props (req : Nat → List Nat)
    (step : Nat → List Nat → List Nat → Except String (List Nat))
    (hstep : ∀ a vis acc out, step a vis acc = .ok out →
      (∃ t, out = acc ++ t) ∧ a ∈ out ∧
      (∀ x ∈ out, x ∈ acc ∨ x ∉ vis) ∧
      (TopoSorted req acc → TopoSorted req out) ∧
      (∀ x ∈ out, x ∈ acc ∨ Reaches req a x) ∧
      (acc.Nodup → out.Nodup)) :
    ∀ rs vis acc out, visitListAux step rs vis acc = .ok out →
      (∃ t, out = acc ++ t) ∧ (∀ r ∈ rs, r ∈ out) ∧
      (∀ x ∈ out, x ∈ acc ∨ x ∉ vis) ∧
      (TopoSorted req acc → TopoSorted req out) ∧
      (∀ x ∈ out, x ∈ acc ∨ ∃ r ∈ rs, Reaches req r x) ∧
      (acc.Nodup → out.Nodup) := by
  intro rs
  induction rs with
  | nil =>
      intro vis acc out h
      simp only [visitListAux, Except.ok.injEq] at h
      subst h
      exact ⟨⟨[], by simp⟩, by simp, fun x hx => Or.inl hx, id,
        fun x hx => Or.inl hx, id⟩
  | cons r rs ih =>
      intro vis acc out h
      cases hs : step r vis acc with
      | error e => simp [visitListAux, hs] at h
      | ok acc1 =>
          simp only [visitListAux, hs] at h
          obtain ⟨⟨t1, ht1⟩, hmem1, hvis1, htopo1, hreach1, hnd1⟩ :=
            hstep r vis acc acc1 hs
          obtain ⟨⟨t2, ht2⟩, hmem2, hvis2, htopo2, hreach2, hnd2⟩ :=
            ih vis acc1 out h
          refine ⟨⟨t1 ++ t2, by rw [ht2, ht1, List.append_assoc]⟩, ?_, ?_,
            fun hs2 => htopo2 (htopo1 hs2), ?_, fun hn => hnd2 (hnd1 hn)⟩
          · intro r2 hr2
            rcases List.mem_cons.mp hr2 with he | hin
            · subst he
              rw [ht2]
              exact List.mem_append_left _ hmem1
            · exact hmem2 r2 hin
          · intro x hx
            rcases hvis2 x hx with hx1 | hnv
            · exact hvis1 x hx1
            · exact Or.inr hnv
          · intro x hx
            rcases hreach2 x hx with hx1 | ⟨r2, hr2, hre2⟩
            · rcases hreach1 x hx1 with hxa | hre
              · exact Or.inl hxa
              · exact Or.inr ⟨r, List.mem_cons_self r rs, hre⟩
            · exact Or.inr ⟨r2, List.mem_cons_of_mem r hr2, hre2⟩

/-- A successful visit extends the accumulated order with the visited node
and only with nodes reachable from it that were off the visiting stack,
preserving topological sortedness and freedom from duplicates. -/
theorem visit_props (req : Nat → List Nat) :
    ∀ fuel a vis acc out, visit req fuel a vis acc = .ok out →
      (∃ t, out = acc ++ t) ∧ a ∈ out ∧
      (∀ x ∈ out, x ∈ acc ∨ x ∉ vis) ∧
      (TopoSorted req acc → TopoSorted req out) ∧
      (∀ x ∈ out, x ∈ acc ∨ Reaches req a x) ∧
      (acc.Nodup → out.Nodup) := by
  intro fuel
  induction fuel with
  | zero =>
      intro a vis acc out h
      simp [visit] at h
  | succ fuel ih =>
      intro a vis acc out h
      simp only [visit] at h
      by_cases hacc : a ∈ acc
      · rw [if_pos hacc] at h
        cases h
        exact ⟨⟨[], by simp⟩, hacc, fun x hx => Or.inl hx, id,
          fun x hx => Or.inl hx, id⟩
      · rw [if_neg hacc] at h
        by_cases hvis : a ∈ vis
        · rw [if_pos hvis] at h
          cases h
        · rw [if_neg hvis] at h
          cases hl : visitListAux (fun r v ac => visit req fuel r v ac)
              (req a) (a :: vis) acc with
          | error e => rw [hl] at h; cases h
          | ok acc2 =>
              rw [hl] at h
              cases h
              obtain ⟨⟨t, ht⟩, hmem, hvis2, htopo, hreach, hnd⟩ :=
                visitListAux_props req _
                  (fun a2 v ac out2 h2 => ih a2 v ac out2 h2)
                  (req a) (a :: vis) acc acc2 hl
              have hanotin : a ∉ acc2 := by
                intro ha2
                rcases hvis2 a ha2 with h1 | h2
                · exact hacc h1
                · exact h2 (List.mem_cons_self a vis)
              refine ⟨⟨t ++ [a], by rw [ht, List.append_assoc]⟩,
                List.mem_append_right _ (List.mem_singleton_self a), ?_,
                ?_, ?_, ?_⟩
              · intro x hx
                rcases List.mem_append.mp hx with h1 | h2
                · rcases hvis2 x h1 with hxa | hnv
                  · exact Or.inl hxa
                  · exact Or.inr (fun hxv => hnv (List.mem_cons_of_mem a hxv))
                · have hxa : x = a := by simpa using h2
                  subst hxa
                  exact Or.inr hvis
              · intro hs
                exact TopoSorted.snoc acc2 a (htopo hs) (fun r hr => hmem r hr)
              · intro x hx
                rcases List.mem_append.mp hx with h1 | h2
                · rcases hreach x h1 with hxa | ⟨r, hr, hre⟩
                  · exact Or.inl hxa
                  · exact Or.inr (Relation.ReflTransGen.head hr hre)
                · have hxa : x = a := by simpa using h2
                  subst hxa
                  exact Or.inr Relation.ReflTransGen.refl
              · intro hn
                rw [List.nodup_append]
                exact ⟨hnd hn, List.nodup_singleton a,
                  fun x hx1 hx2 => hanotin ((List.mem_singleton.mp hx2) ▸ hx1)⟩

end Checker

namespace Checker

/-- A successful schedule extends the accumulated order by the closure of the
roots: all roots are placed, topological sortedness and freedom from
duplicates are preserved, and every new node is reachable from a root. -/
theorem schedule_props (req : Nat → List Nat) (n : Nat) :
    ∀ roots acc out, schedule req n roots acc = .ok out →
      (∃ t, out = acc ++ t) ∧ (∀ r ∈ roots, r ∈ out) ∧
      (TopoSorted req acc → TopoSorted req out) ∧
      (∀ x ∈ out, x ∈ acc ∨ ∃ r ∈ roots, Reaches req r x) ∧
      (acc.Nodup → out.Nodup) := by
  intro roots
  induction roots with
  | nil =>
      intro acc out h
      simp only [schedule, Except.ok.injEq] at h
      subst h
      exact ⟨⟨[], by simp⟩, by simp, id, fun x hx => Or.inl hx, id⟩
  | cons r rs ih =>
      intro acc out h
      cases hs : visit req (n + 1) r [] acc with
      | error e => simp [schedule, hs] at h
      | ok acc1 =>
          simp only [schedule, hs] at h
          obtain ⟨⟨t1, ht1⟩, hmem1, -, htopo1, hreach1, hnd1⟩ :=
            visit_props req (n + 1) r [] acc acc1 hs
          obtain ⟨⟨t2, ht2⟩, hmem2, htopo2, hreach2, hnd2⟩ :=
            ih acc1 out h
          refine ⟨⟨t1 ++ t2, by rw [ht2, ht1, List.append_assoc]⟩, ?_,
            fun hs2 => htopo2 (htopo1 hs2), ?_, fun hn => hnd2 (hnd1 hn)⟩
          · intro r2 hr2
            rcases List.mem_cons.mp hr2 with he | hin
            · subst he
              rw [ht2]
              exact List.mem_append_left _ hmem1
            · exact hmem2 r2 hin
          · intro x hx
            rcases hreach2 x hx with hx1 | ⟨r2, hr2, hre2⟩
            · rcases hreach1 x hx1 with hxa | hre
              · exact Or.inl hxa
              · exact Or.inr ⟨r, List.mem_cons_self r rs, hre⟩
            · exact Or.inr ⟨r2, List.mem_cons_of_mem r hr2, hre2⟩

/-- A topologically sorted order is requirement-closed: the requirements of
every placed analyzer are placed as well. -/
theorem topoSorted_closed (req : Nat → List Nat) (l : List Nat)
    (h : TopoSorted req l) : ∀ x ∈ l, ∀ r ∈ req x, r ∈ l := by
  induction h with
  | nil => simp
  | snoc l x hl hx ih =>
      intro y hy r hr
      rcases List.mem_append.mp hy with h1 | h2
      · exact List.mem_append_left _ (ih y h1 r hr)
      · have hyx : y = x := by simpa using h2
        subst hyx
        exact List.mem_append_left _ (hx r hr)

/-- A requirement-closed set of analyzers is closed under reachability. -/
theorem reaches_mem_of_closed (req : Nat → List Nat) (l : List Nat)
    (hcl : ∀ x ∈ l, ∀ r ∈ req x, r ∈ l) :
    ∀ a b, Reaches req a b → a ∈ l → b ∈ l := by
  intro a b hab
  induction hab with
  | refl => exact id
  | tail h1 h2 ih3 => intro ha; exact hcl _ (ih3 ha) _ h2

/-- An analyzer placed in a duplicate-free topologically sorted order cannot
require itself through a nonempty requirement path. -/
theorem topoSorted_no_cycle (req : Nat → List Nat) (l : List Nat)
    (h : TopoSorted req l) (hnd : l.Nodup) :
    ∀ x ∈ l, ¬ ReachesPlus req x x := by
  induction h with
  | nil => simp
  | snoc l y hl hy ih =>
      rw [List.nodup_append] at hnd
      obtain ⟨hndl, -, hdisj⟩ := hnd
      have hynotl : y ∉ l := fun hyl => hdisj hyl (List.mem_singleton_self y)
      intro x hx hcyc
      rcases List.mem_append.mp hx with h1 | h2
      · exact ih hndl x h1 hcyc
      · have hxy : x = y := by simpa using h2
        subst hxy
        obtain ⟨c, hc, hcy⟩ := Relation.TransGen.head'_iff.mp hcyc
        have hcl2 : c ∈ l := hy c hc
        exact hynotl (reaches_mem_of_closed req l (topoSorted_closed req l hl)
          c x hcy hcl2)

/-- A duplicate-free list of naturals below `n` has length at most `n`. -/
theorem length_le_of_nodup_bound (l : List Nat) (n : Nat) (hnd : l.Nodup)
    (hb : ∀ x ∈ l, x < n) : l.length ≤ n := by
  calc l.length = l.toFinset.card := (List.toFinset_card_of_nodup hnd).symm
    _ ≤ (Finset.range n).card :=
        Finset.card_le_card
          (fun x hx => Finset.mem_range.mpr (hb x (List.mem_toFinset.mp hx)))
    _ = n := Finset.card_range n

/-- Every entry of the visiting stack reaches, through at least one
requirement edge, the node now being visited. -/
theorem visChain_reachesPlus (req : Nat → List Nat) :
    ∀ vis a, VisChain req vis a → ∀ v ∈ vis, ReachesPlus req v a := by
  intro vis
  induction vis with
  | nil => simp
  | cons v rest ih =>
      intro a hch w hw
      obtain ⟨hedge, hrest⟩ := hch
      rcases List.mem_cons.mp hw with he | hin
      · subst he
        exact Relation.TransGen.single hedge
      · exact Relation.TransGen.tail (ih v hrest w hin) hedge

/-- On an acyclic requirement graph over `n` analyzers, a visit with enough
fuel never fails: the cycle branch is unreachable and the visiting stack is
too short to exhaust the fuel. -/
theorem visit_ok (req : Nat → List Nat) (n : Nat)
    (hwf : ∀ x, ∀ r ∈ req x, r < n) (hacyc : Acyclic req) :
    ∀ fuel a vis acc, n + 1 ≤ fuel + vis.length → a < n →
      (∀ v ∈ vis, v < n) → vis.Nodup → VisChain req vis a →
      ∃ out, visit req fuel a vis acc = .ok out := by
  intro fuel
  induction fuel with
  | zero =>
      intro a vis acc hfuel ha hb hnd hch
      exfalso
      have := length_le_of_nodup_bound vis n hnd hb
      omega
  | succ fuel ih =>
      intro a vis acc hfuel ha hb hnd hch
      simp only [visit]
      by_cases hacc : a ∈ acc
      · exact ⟨acc, by rw [if_pos hacc]⟩
      · rw [if_neg hacc]
        by_cases hvis : a ∈ vis
        · exact absurd (visChain_reachesPlus req vis a hch a hvis) (hacyc a)
        · rw [if_neg hvis]
          have hlist : ∀ rs, (∀ r ∈ rs, r ∈ req a) → ∀ acc0,
              ∃ out2, visitListAux (fun r v ac => visit req fuel r v ac)
                rs (a :: vis) acc0 = .ok out2 := by
            intro rs
            induction rs with
            | nil => intro _ acc0; exact ⟨acc0, rfl⟩
            | cons r rs ihr =>
                intro hsub acc0
                obtain ⟨out1, hout1⟩ := ih r (a :: vis) acc0
                  (by simp only [List.length_cons]; omega)
                  (hwf a r (hsub r (List.mem_cons_self r rs)))
                  (by
                    intro v hv
                    rcases List.mem_cons.mp hv with he | hin
                    · subst he; exact ha
                    · exact hb v hin)
                  (List.nodup_cons.mpr ⟨hvis, hnd⟩)
                  ⟨hsub r (List.mem_cons_self r rs), hch⟩
                obtain ⟨out2, hout2⟩ :=
                  ihr (fun r2 h2 => hsub r2 (List.mem_cons_of_mem r h2)) out1
                exact ⟨out2, by simp only [visitListAux, hout1, hout2]⟩
          obtain ⟨acc2, hacc2⟩ := hlist (req a) (fun r hr => hr) acc
          exact ⟨acc2 ++ [a], by rw [hacc2]⟩

/-- On an acyclic requirement graph over `n` analyzers, scheduling any root
set within the registry succeeds. -/
theorem schedule_ok (req : Nat → List Nat) (n : Nat)
    (hwf : ∀ x, ∀ r ∈ req x, r < n) (hacyc : Acyclic req) :
    ∀ roots acc, (∀ r ∈ roots, r < n) →
      ∃ out, schedule req n roots acc = .ok out := by
  intro roots
  induction roots with
  | nil => intro acc _; exact ⟨acc, rfl⟩
  | cons r rs ih =>
      intro acc hb
      obtain ⟨out1, hout1⟩ := visit_ok req n hwf hacyc (n + 1) r [] acc
        (by simp) (hb r (List.mem_cons_self r rs)) (by simp) List.nodup_nil
        trivial
      obtain ⟨out2, hout2⟩ := ih out1 (fun r2 h2 => hb r2 (List.mem_cons_of_mem r h2))
      exact ⟨out2, by simp only [schedule, hout1, hout2]⟩

/-- A topologically sorted order satisfies the split-form statement: wherever
the order splits around an analyzer, its requirements occur to the left. -/
theorem topoSorted_toOrdered (req : Nat → List Nat) (l : List Nat)
    (h : TopoSorted req l) : TopoOrdered req l := by
  induction h with
  | nil =>
      intro l1 x l2 heq _ _
      exact absurd heq (by simp)
  | snoc l y hl hy ih =>
      intro l1 x l2 heq r hr
      rcases List.eq_nil_or_concat l2 with h2 | ⟨l2h, b, h2⟩
      · subst h2
        obtain ⟨hl1, hx⟩ := List.append_inj' heq (by simp)
        have hxy : y = x := by simpa using hx
        subst hxy
        subst hl1
        exact hy r hr
      · subst h2
        have heq2 : l ++ [y] = (l1 ++ x :: l2h) ++ [b] := by
          rw [heq, List.concat_eq_append]
          simp
        obtain ⟨hl1, hx⟩ := List.append_inj' heq2 (by simp)
        exact ih l1 x l2h hl1 r hr

end Checker

namespace Checker

/-- A requirement graph admitting a strictly decreasing rank along its edges
is acyclic. -/
theorem acyclic_of_rank (req : Nat → List Nat) (rank : Nat → Nat)
    (hr : ∀ x y, y ∈ req x → rank y < rank x) : Acyclic req := by
  intro a hcyc
  have hdec : ∀ p q, ReachesPlus req p q → rank q < rank p := by
    intro p q h
    induction h with
    | single h1 => exact hr _ _ h1
    | tail _ h2 ih3 => exact lt_trans (hr _ _ h2) ih3
  exact lt_irrefl _ (hdec a a hcyc)

/-- When the requested closure contains a node that requires itself through a
nonempty path, scheduling fails. -/
theorem schedule_error_of_cycle (req : Nat → List Nat) (n : Nat)
    (roots : List Nat) (x : Nat)
    (hreach0 : ∃ rt ∈ roots, Reaches req rt x)
    (hcyc : ReachesPlus req x x) :
    ∃ e, schedule req n roots [] = .error e := by
  cases hres : schedule req n roots [] with
  | error e => exact ⟨e, rfl⟩
  | ok order =>
      exfalso
      obtain ⟨-, hmem, htopo, -, hnd⟩ := schedule_props req n roots [] order hres
      have hts : TopoSorted req order := htopo TopoSorted.nil
      obtain ⟨rt, hrt, hre⟩ := hreach0
      have hx : x ∈ order :=
        reaches_mem_of_closed req order (topoSorted_closed req order hts)
          rt x hre (hmem rt hrt)
      exact topoSorted_no_cycle req order hts (hnd List.nodup_nil) x hx hcyc

end Checker

open Checker in
/-- C2: for every requirement graph over `n` analyzers that is acyclic and
well formed, and every requested root set, the scheduler succeeds; its output
is exactly the closure of the roots under transitive requirement, every
analyzer appears after all of its requirements, and — the scheduler being a
pure function of its input — repeated runs on the same input return the
identical order. -/
theorem scheduler_closure_topological_deterministic
    (req : Nat → List Nat) (n : Nat) (roots : List Nat)
    (hwf : ∀ x, ∀ r ∈ req x, r < n) (hroots : ∀ r ∈ roots, r < n)
    (hacyc : Acyclic req) :
    ∃ order, schedule req n roots [] = .ok order ∧
      (∀ x, x ∈ order ↔ ∃ rt ∈ roots, Reaches req rt x) ∧
      TopoOrdered req order ∧
      schedule req n roots [] = schedule req n roots [] := by
  obtain ⟨order, hok⟩ := schedule_ok req n hwf hacyc roots [] hroots
  obtain ⟨-, hmem, htopo, hreach, -⟩ := schedule_props req n roots [] order hok
  have hts : TopoSorted req order := htopo TopoSorted.nil
  refine ⟨order, hok, ?_, topoSorted_toOrdered req order hts, rfl⟩
  intro x
  constructor
  · intro hx
    rcases hreach x hx with h | h
    · exact absurd h (by simp)
    · exact h
  · rintro ⟨rt, hrt, hre⟩
    exact reaches_mem_of_closed req order (topoSorted_closed req order hts)
      rt x hre (hmem rt hrt)

open Checker in
/-- Witness for C2: the diamond graph where analyzer 3 requires 1 and 2, both
of which require 0, schedules successfully from root 3. -/
theorem scheduler_closure_topological_deterministic_witness :
    (schedule (fun a => if a = 3 then [1, 2] else if a = 1 then [0]
      else if a = 2 then [0] else []) 4 [3] []).isOk = true := by
  obtain ⟨order, hok, -, -, -⟩ :=
    scheduler_closure_topological_deterministic
      (fun a => if a = 3 then [1, 2] else if a = 1 then [0]
        else if a = 2 then [0] else []) 4 [3]
      (by
        intro x r hr
        by_cases h3 : x = 3
        · subst h3
          simp at hr
          rcases hr with h | h <;> subst h <;> omega
        · by_cases h1 : x = 1
          · subst h1
            simp at hr
            subst hr
            omega
          · by_cases h2 : x = 2
            · subst h2
              simp at hr
              subst hr
              omega
            · simp [h3, h1, h2] at hr)
      (by intro r hr; simp at hr; omega)
      (acyclic_of_rank _ (fun v => v) (by
        intro x y hy
        by_cases h3 : x = 3
        · subst h3
          simp at hy
          rcases hy with h | h <;> subst h <;> decide
        · by_cases h1 : x = 1
          · subst h1
            simp at hy
            subst hy
            decide
          · by_cases h2 : x = 2
            · subst h2
              simp at hy
              subst hy
              decide
            · simp [h3, h1, h2] at hy))
  rw [hok]
  rfl

open Checker in
/-- C3: when some analyzer of the requested closure requires itself through a
nonempty path, scheduling fails with a configuration error and the run
executes zero passes: for every pattern list, the run exits 1 with an empty
diagnostic list and an empty execution log, so no analyzer run function is
invoked and no pass side effects occur. -/
theorem cycle_aborts_run_before_passes (reg : List AnalyzerDescriptor)
    (x : Nat) (hx : x < reg.length)
    (hcyc : ReachesPlus (requiresOf reg) x x) :
    (∃ e, schedule (requiresOf reg) reg.length
      (List.range reg.length) [] = .error e) ∧
    ∀ pats, (checkerRun reg pats).exitCode = 1 ∧
      (checkerRun reg pats).diags = [] ∧
      (checkerRun reg pats).execLog = [] := by
  have herr := schedule_error_of_cycle (requiresOf reg) reg.length
    (List.range reg.length) x
    ⟨x, by simpa using hx, Relation.ReflTransGen.refl⟩ hcyc
  refine ⟨herr, ?_⟩
  intro pats
  obtain ⟨e, he⟩ := herr
  have hcr : checkerRun reg pats = ⟨1, [], []⟩ := by
    cases hlp : loadPatterns pats with
    | error e2 => simp [checkerRun, hlp]
    | ok units =>
        cases hu : units.isEmpty with
        | true => simp [checkerRun, hlp, hu]
        | false => simp [checkerRun, hlp, hu, he]
  rw [hcr]
  exact ⟨rfl, rfl, rfl⟩

open Checker in
/-- Witness for C3: two analyzers requiring each other make every run exit 1
with nothing executed. -/
theorem cycle_aborts_run_before_passes_witness :
    (checkerRun cyclicRegistry [Pattern.resolves [⟨0, false⟩]]).exitCode = 1 ∧
    (checkerRun cyclicRegistry [Pattern.resolves [⟨0, false⟩]]).execLog = [] := by
  have h01 : Requires (requiresOf cyclicRegistry) 0 1 := by
    show (1 : Nat) ∈ requiresOf cyclicRegistry 0
    decide
  have h10 : Requires (requiresOf cyclicRegistry) 1 0 := by
    show (0 : Nat) ∈ requiresOf cyclicRegistry 1
    decide
  have h := cycle_aborts_run_before_passes cyclicRegistry 0 (by decide)
    (Relation.TransGen.tail (Relation.TransGen.single h01) h10)
  exact ⟨(h.2 [Pattern.resolves [⟨0, false⟩]]).1,
    (h.2 [Pattern.resolves [⟨0, false⟩]]).2.2⟩

namespace Checker

/-- Looking up a key at the head of an association list. -/
theorem lookup_cons_self {β : Type} (k : Nat × Nat) (v : β)
    (rest : List ((Nat × Nat) × β)) : List.lookup k ((k, v) :: rest) = some v := by
  simp [List.lookup]

/-- Looking up a key past a differently keyed head entry. -/
theorem lookup_cons_ne {β : Type} (k k2 : Nat × Nat) (v : β)
    (rest : List ((Nat × Nat) × β)) (h : k ≠ k2) :
    List.lookup k ((k2, v) :: rest) = List.lookup k rest := by
  simp [List.lookup, beq_false_of_ne h]

/-- Every state steps to itself. -/
theorem stateStep_rfl (st : RunState) : StateStep st st :=
  ⟨fun _ h => h, fun _ _ h => h, ⟨[], by simp⟩⟩

/-- Cache steps compose. -/
theorem stateStep_trans {a b c : RunState} (h1 : StateStep a b)
    (h2 : StateStep b c) : StateStep a c := by
  obtain ⟨p1, c1, t1, e1⟩ := h1
  obtain ⟨p2, c2, t2, e2⟩ := h2
  exact ⟨fun k h => p2 k (p1 k h), fun k o h => c2 k o (c1 k o h),
    ⟨t1 ++ t2, by rw [e2, e1, List.append_assoc]⟩⟩

/-- Updating a present key makes its lookup the completed outcome. -/
theorem lookup_updateCache_self (k : Nat × Nat) (o : PassOutcome) :
    ∀ c : List ((Nat × Nat) × Option PassOutcome), (List.lookup k c).isSome →
      List.lookup k (updateCache k o c) = some (some o) := by
  intro c
  induction c with
  | nil => intro h; simp [List.lookup] at h
  | cons kv rest ih =>
      intro h
      obtain ⟨k2, v⟩ := kv
      by_cases hk : k2 = k
      · subst hk
        simp [updateCache, lookup_cons_self]
      · rw [lookup_cons_ne _ _ _ _ (Ne.symm hk)] at h
        simp only [updateCache, if_neg hk]
        rw [lookup_cons_ne _ _ _ _ (Ne.symm hk)]
        exact ih h

/-- Updating one key leaves every other key's lookup unchanged. -/
theorem lookup_updateCache_other (k k2 : Nat × Nat) (o : PassOutcome)
    (hne : k2 ≠ k) :
    ∀ c : List ((Nat × Nat) × Option PassOutcome),
      List.lookup k2 (updateCache k o c) = List.lookup k2 c := by
  intro c
  induction c with
  | nil => simp [updateCache]
  | cons kv rest ih =>
      obtain ⟨k3, v⟩ := kv
      by_cases hk : k3 = k
      · subst hk
        have hup : updateCache k3 o ((k3, v) :: rest) = (k3, some o) :: rest := by
          simp [updateCache]
        rw [hup, lookup_cons_ne _ _ _ _ hne, lookup_cons_ne _ _ _ _ hne]
      · simp only [updateCache, if_neg hk]
        by_cases h23 : k2 = k3
        · subst h23
          rw [lookup_cons_self, lookup_cons_self]
        · rw [lookup_cons_ne _ _ _ _ h23, lookup_cons_ne _ _ _ _ h23]
          exact ih

/-- Requesting a list of dependencies preserves the run-state invariant and
is a monotone cache step, as soon as each single request is. -/
theorem getDepsAux_inv (step : Nat → RunState → RunState)
    (hstep : ∀ a st, StateInv st →
      StateInv (step a st) ∧ StateStep st (step a st)) :
    ∀ rs st, StateInv st →
      StateInv (getDepsAux step rs st) ∧ StateStep st (getDepsAux step rs st) := by
  intro rs
  induction rs with
  | nil => intro st h; exact ⟨h, stateStep_rfl st⟩
  | cons r rs ih =>
      intro st h
      obtain ⟨h1, h2⟩ := hstep r st h
      obtain ⟨h3, h4⟩ := ih (step r st) h1
      exact ⟨h3, stateStep_trans h2 h4⟩

/-- getOrCompute preserves the run-state invariant and is a monotone cache
step: a key already computed or in progress is never recomputed. -/
theorem getOrCompute_inv (reg : List AnalyzerDescriptor) (u : UnitInfo) :
    ∀ fuel a st, StateInv st →
      StateInv (getOrCompute reg u fuel a st) ∧
      StateStep st (getOrCompute reg u fuel a st) := by
  intro fuel
  induction fuel with
  | zero =>
      intro a st h
      exact ⟨h, stateStep_rfl st⟩
  | succ fuel ih =>
      intro a st hinv
      simp only [getOrCompute]
      cases hl : List.lookup (a, u.uid) st.cache with
      | some v => exact ⟨hinv, stateStep_rfl st⟩
      | none =>
          obtain ⟨hnd, hiff, hdg⟩ := hinv
          have hinv1 : StateInv
              { st with cache := ((a, u.uid), none) :: st.cache } := by
            refine ⟨hnd, ?_, hdg⟩
            intro k
            by_cases hk : k = (a, u.uid)
            · subst hk
              constructor
              · intro hmem
                obtain ⟨o, ho⟩ := (hiff _).mp hmem
                rw [hl] at ho
                cases ho
              · intro ho2
                obtain ⟨o, ho⟩ := ho2
                rw [show ({ st with cache := ((a, u.uid), none) :: st.cache } :
                    RunState).cache = ((a, u.uid), none) :: st.cache from rfl,
                  lookup_cons_self] at ho
                simp at ho
            · simp only [lookup_cons_ne _ _ _ _ hk]
              exact hiff k
          have hstep1 : StateStep st
              { st with cache := ((a, u.uid), none) :: st.cache } := by
            refine ⟨?_, ?_, ⟨[], by simp⟩⟩
            · intro k hk
              have hne : k ≠ (a, u.uid) := by
                intro he
                rw [he, hl] at hk
                cases hk
              simp only [lookup_cons_ne _ _ _ _ hne]
              exact hk
            · intro k o hk
              have hne : k ≠ (a, u.uid) := by
                intro he
                rw [he, hl] at hk
                cases hk
              simp only [lookup_cons_ne _ _ _ _ hne]
              exact hk
          obtain ⟨hinv2, hstep2⟩ :=
            getDepsAux_inv (fun r s => getOrCompute reg u fuel r s)
              (fun r s hs => ih r s hs) (requiresOf reg a)
              { st with cache := ((a, u.uid), none) :: st.cache } hinv1
          set st2 := getDepsAux (fun r s => getOrCompute reg u fuel r s)
            (requiresOf reg a)
            { st with cache := ((a, u.uid), none) :: st.cache } with hst2
          have hmark2 : List.lookup (a, u.uid) st2.cache = some none :=
            hstep2.1 (a, u.uid) (lookup_cons_self _ _ _)
          have hnotlog2 : (a, u.uid) ∉ st2.execLog.map Prod.fst := by
            intro hmem
            obtain ⟨o, ho⟩ := (hinv2.2.1 _).mp hmem
            rw [hmark2] at ho
            simp at ho
          obtain ⟨hnd2, hiff2, hdg2⟩ := hinv2
          refine ⟨⟨?_, ?_, ?_⟩, ?_, ?_, ?_⟩
          · simp only [List.map_append, List.map_cons, List.map_nil]
            rw [List.nodup_append]
            exact ⟨hnd2, List.nodup_singleton _,
              fun x hx1 hx2 => hnotlog2 ((List.mem_singleton.mp hx2) ▸ hx1)⟩
          · intro k
            by_cases hk : k = (a, u.uid)
            · subst hk
              constructor
              · intro _
                exact ⟨runPass reg a u,
                  lookup_updateCache_self _ _ _ (by rw [hmark2]; rfl)⟩
              · intro _
                simp
            · simp only [lookup_updateCache_other _ _ _ hk]
              simp only [List.map_append, List.map_cons, List.map_nil,
                List.mem_append, List.mem_singleton]
              constructor
              · intro hor
                rcases hor with h1 | h1
                · exact (hiff2 k).mp h1
                · exact absurd h1 hk
              · intro h1
                exact Or.inl ((hiff2 k).mpr h1)
          · simp only [List.flatMap_append, List.flatMap_cons,
              List.flatMap_nil, List.append_nil]
            rw [hdg2]
          · intro k hk
            have hne : k ≠ (a, u.uid) := by
              intro he
              rw [he, hl] at hk
              cases hk
            simp only [lookup_updateCache_other _ _ _ hne]
            exact hstep2.1 k (hstep1.1 k hk)
          · intro k o hk
            have hne : k ≠ (a, u.uid) := by
              intro he
              rw [he, hl] at hk
              cases hk
            simp only [lookup_updateCache_other _ _ _ hne]
            exact hstep2.2.1 k o (hstep1.2.1 k o hk)
          · obtain ⟨t2, ht2⟩ := hstep2.2.2
            refine ⟨t2 ++ [((a, u.uid), runPass reg a u)], ?_⟩
            show st2.execLog ++ [((a, u.uid), runPass reg a u)] =
              st.execLog ++ (t2 ++ [((a, u.uid), runPass reg a u)])
            rw [ht2]
            simp

end Checker

namespace Checker

/-- Running all scheduled analyzers over all units preserves the run-state
invariant. -/
theorem execAll_inv (reg : List AnalyzerDescriptor) (order : List Nat)
    (units : List UnitInfo) :
    ∀ st, StateInv st → StateInv (execAll reg order units st) := by
  have hone : ∀ (u : UnitInfo) (ord : List Nat) (st : RunState), StateInv st →
      StateInv (ord.foldl
        (fun s2 a => getOrCompute reg u (reg.length + 1) a s2) st) := by
    intro u ord
    induction ord with
    | nil => intro st h; exact h
    | cons a rest ih =>
        intro st h
        simp only [List.foldl_cons]
        exact ih _ (getOrCompute_inv reg u (reg.length + 1) a st h).1
  unfold execAll
  induction units with
  | nil => intro st h; exact h
  | cons u us ih =>
      intro st h
      simp only [List.foldl_cons]
      exact ih _ (hone u order st h)

/-- A duplicate-free key list counts every key at most once. -/
theorem count_le_one_of_nodup {l : List (Nat × Nat)} (h : l.Nodup)
    (k : Nat × Nat) : l.count k ≤ 1 := by
  induction l with
  | nil => simp
  | cons a l ih =>
      rw [List.nodup_cons] at h
      rw [List.count_cons]
      by_cases hak : k = a
      · subst hak
        have : l.count k = 0 := List.count_eq_zero_of_not_mem h.1
        simp [this]
      · rw [beq_false_of_ne (fun he => hak he.symm)]
        simpa using ih h.2

end Checker

open Checker in
/-- C1: in every run, every (analyzer, unit) pair's pass is computed at most
once — the execution log, which records each invocation of getOrCompute that
actually computes a pass (and hence each execution of a run function), never
repeats a key — and the run-wide diagnostic collection is exactly the
concatenation of the logged outcomes' diagnostics, so the diagnostics of each
pass are recorded exactly once, never duplicated. -/
theorem run_function_at_most_once_per_key
    (reg : List AnalyzerDescriptor) (pats : List Pattern) :
    (∀ k, ((checkerRun reg pats).execLog.map Prod.fst).count k ≤ 1) ∧
    (checkerRun reg pats).diags =
      (checkerRun reg pats).execLog.flatMap (fun e => outcomeDiags e.2) := by
  have hinv0 : StateInv ⟨[], [], []⟩ := by
    refine ⟨List.nodup_nil, ?_, by simp⟩
    intro k
    simp [List.lookup]
  have hmain : ∀ (r : RunResult),
      ((r.execLog.map Prod.fst).Nodup ∧
        r.diags = r.execLog.flatMap (fun e => outcomeDiags e.2)) →
      (∀ k, (r.execLog.map Prod.fst).count k ≤ 1) ∧
      r.diags = r.execLog.flatMap (fun e => outcomeDiags e.2) := by
    intro r hr
    exact ⟨fun k => count_le_one_of_nodup hr.1 k, hr.2⟩
  apply hmain
  cases hlp : loadPatterns pats with
  | error e => simp [checkerRun, hlp]
  | ok units =>
      cases hu : units.isEmpty with
      | true => simp [checkerRun, hlp, hu]
      | false =>
          cases hs : schedule (requiresOf reg) reg.length
              (List.range reg.length) [] with
          | error e => simp [checkerRun, hlp, hu, hs]
          | ok order =>
              obtain ⟨hnd, -, hdg⟩ := execAll_inv reg order units ⟨[], [], []⟩ hinv0
              constructor
              · simp only [checkerRun, hlp, hu, hs]
                exact hnd
              · simp only [checkerRun, hlp, hu, hs]
                exact hdg

namespace Checker

/-- A pattern list containing an invalid pattern fails to load. -/
theorem loadPatterns_error_of_invalid (nm : String) :
    ∀ pats : List Pattern, Pattern.invalid nm ∈ pats →
      ∃ e, loadPatterns pats = .error e := by
  intro pats
  induction pats with
  | nil => intro h; simp at h
  | cons p rest ih =>
      intro h
      cases p with
      | invalid nm2 => exact ⟨nm2 ++ " failed to load", rfl⟩
      | resolves us =>
          have hmem : Pattern.invalid nm ∈ rest := by
            rcases List.mem_cons.mp h with h1 | h1
            · cases h1
            · exact h1
          obtain ⟨e, he⟩ := ih hmem
          exact ⟨e, by simp [loadPatterns, he]⟩

end Checker

open Checker in
/-- C4: on a unit carrying front-end errors, an analyzer with
RunDespiteErrors false is skipped — its run function does not execute — while
an analyzer with RunDespiteErrors true executes normally; end to end, a
skip-by-default analyzer on an errored unit exits 1 with the analyzer never
executed (every logged outcome is the skip, no diagnostic emitted), while the
despite-errors no-op analyzer on the same unit exits 0. -/
theorem runDespiteErrors_skip_semantics
    (reg : List AnalyzerDescriptor) (a : Nat) (ad : AnalyzerDescriptor)
    (u : UnitInfo) (hget : reg.get? a = some ad) (herr : u.hasErrors = true) :
    (ad.runDespiteErrors = false → runPass reg a u = .skipped) ∧
    (ad.runDespiteErrors = true →
      runPass reg a u = .completed (ad.runDiags u.uid) (ad.runErr u.uid)) ∧
    (checkerRun [renameLikeAnalyzer] [.resolves [errUnit]]).exitCode = 1 ∧
    (checkerRun [renameLikeAnalyzer] [.resolves [errUnit]]).diags = [] ∧
    (∀ e ∈ (checkerRun [renameLikeAnalyzer] [.resolves [errUnit]]).execLog,
      e.2 = PassOutcome.skipped) ∧
    (checkerRun [noopAnalyzer] [.resolves [errUnit]]).exitCode = 0 := by
  have hget2 : reg[a]? = some ad := by
    rw [← List.get?_eq_getElem?]
    exact hget
  refine ⟨?_, ?_, by decide, by decide, ?_, by decide⟩
  · intro hrde
    simp [runPass, hget2, herr, hrde]
  · intro hrde
    simp [runPass, hget2, herr, hrde]
  · intro e he
    have hlog : (checkerRun [renameLikeAnalyzer]
        [.resolves [errUnit]]).execLog = [((0, 0), PassOutcome.skipped)] := by
      decide
    rw [hlog] at he
    simp at he
    rw [he]

open Checker in
/-- Witness for C4: the concrete skip — the rename-like analyzer's pass on
the errored unit is skipped, its run function never executing. -/
theorem runDespiteErrors_skip_semantics_witness :
    runPass [renameLikeAnalyzer] 0 errUnit = PassOutcome.skipped :=
  (runDespiteErrors_skip_semantics [renameLikeAnalyzer] 0 renameLikeAnalyzer
    errUnit rfl rfl).1 rfl

open Checker in
/-- C5: a run exits 0 or 1; it exits 1 whenever a diagnostic was reported, a
pass completed with an error, front-end errors were surfaced by a skipped
pass, or a requested pattern failed to load — in the load-failure case with
no partial diagnostic output, whatever the analyzers' RunDespiteErrors flags;
and it exits 0 when loading and scheduling succeeded and the run produced no
diagnostic, no pass error and no skip. -/
theorem run_exit_status_characterization
    (reg : List AnalyzerDescriptor) (pats : List Pattern) :
    ((checkerRun reg pats).exitCode = 0 ∨ (checkerRun reg pats).exitCode = 1) ∧
    ((checkerRun reg pats).diags ≠ [] → (checkerRun reg pats).exitCode = 1) ∧
    (∀ k d e, (k, PassOutcome.completed d (some e)) ∈
      (checkerRun reg pats).execLog → (checkerRun reg pats).exitCode = 1) ∧
    (∀ k, (k, PassOutcome.skipped) ∈ (checkerRun reg pats).execLog →
      (checkerRun reg pats).exitCode = 1) ∧
    (∀ nm, Pattern.invalid nm ∈ pats →
      (checkerRun reg pats).exitCode = 1 ∧ (checkerRun reg pats).diags = []) ∧
    (∀ units order, loadPatterns pats = .ok units → units.isEmpty = false →
      schedule (requiresOf reg) reg.length (List.range reg.length) [] =
        .ok order →
      (checkerRun reg pats).diags = [] →
      (∀ e ∈ (checkerRun reg pats).execLog,
        ∃ d, e.2 = PassOutcome.completed d none) →
      (checkerRun reg pats).exitCode = 0) := by
  cases hlp : loadPatterns pats with
  | error e0 =>
      refine ⟨Or.inr (by simp [checkerRun, hlp]), ?_, ?_, ?_, ?_, ?_⟩
      · intro _; simp [checkerRun, hlp]
      · intro k d e hmem
        simp [checkerRun, hlp] at hmem
      · intro k hmem
        simp [checkerRun, hlp] at hmem
      · intro nm _
        exact ⟨by simp [checkerRun, hlp], by simp [checkerRun, hlp]⟩
      · intro units order hok
        exact Except.noConfusion hok
  | ok units =>
      cases hu : units.isEmpty with
      | true =>
          refine ⟨Or.inr (by simp [checkerRun, hlp, hu]), ?_, ?_, ?_, ?_, ?_⟩
          · intro _; simp [checkerRun, hlp, hu]
          · intro k d e hmem
            simp [checkerRun, hlp, hu] at hmem
          · intro k hmem
            simp [checkerRun, hlp, hu] at hmem
          · intro nm hmem
            obtain ⟨e, he⟩ := loadPatterns_error_of_invalid nm pats hmem
            exact Except.noConfusion (he.symm.trans hlp)
          · intro units2 order hok hne
            have huu : units = units2 := Except.ok.inj hok
            subst huu
            rw [hu] at hne
            exact Bool.noConfusion hne
      | false =>
          cases hs : schedule (requiresOf reg) reg.length
              (List.range reg.length) [] with
          | error e0 =>
              refine ⟨Or.inr (by simp [checkerRun, hlp, hu, hs]),
                ?_, ?_, ?_, ?_, ?_⟩
              · intro _; simp [checkerRun, hlp, hu, hs]
              · intro k d e hmem
                simp [checkerRun, hlp, hu, hs] at hmem
              · intro k hmem
                simp [checkerRun, hlp, hu, hs] at hmem
              · intro nm hmem
                obtain ⟨e, he⟩ := loadPatterns_error_of_invalid nm pats hmem
                exact Except.noConfusion (he.symm.trans hlp)
              · intro units2 order hok hne hsok
                exact Except.noConfusion hsok
          | ok order =>
              have hd : (checkerRun reg pats).diags =
                  (execAll reg order units ⟨[], [], []⟩).diags := by
                simp [checkerRun, hlp, hu, hs]
              have hlg : (checkerRun reg pats).execLog =
                  (execAll reg order units ⟨[], [], []⟩).execLog := by
                simp [checkerRun, hlp, hu, hs]
              have hx : (checkerRun reg pats).exitCode =
                  if stateFails (execAll reg order units ⟨[], [], []⟩)
                  then 1 else 0 := by
                simp [checkerRun, hlp, hu, hs]
              refine ⟨?_, ?_, ?_, ?_, ?_, ?_⟩
              · rw [hx]
                by_cases hf : stateFails (execAll reg order units ⟨[], [], []⟩)
                · exact Or.inr (by rw [if_pos hf])
                · exact Or.inl (by rw [if_neg hf])
              · intro hne
                rw [hd] at hne
                rw [hx, if_pos]
                unfold stateFails
                rw [Bool.or_eq_true, Bool.not_eq_eq_eq_not]
                exact Or.inl (by simpa using hne)
              · intro k d e hmem
                rw [hlg] at hmem
                rw [hx, if_pos]
                unfold stateFails
                rw [Bool.or_eq_true]
                refine Or.inr (List.any_eq_true.mpr ⟨(k, .completed d (some e)),
                  hmem, rfl⟩)
              · intro k hmem
                rw [hlg] at hmem
                rw [hx, if_pos]
                unfold stateFails
                rw [Bool.or_eq_true]
                exact Or.inr (List.any_eq_true.mpr ⟨(k, .skipped), hmem, rfl⟩)
              · intro nm hmem
                obtain ⟨e, he⟩ := loadPatterns_error_of_invalid nm pats hmem
                exact Except.noConfusion (he.symm.trans hlp)
              · intro units2 order2 hok hne hsok hdiag hcomp
                rw [hx, if_neg]
                unfold stateFails
                rw [Bool.or_eq_true]
                intro hor
                rcases hor with h1 | h1
                · rw [hd] at hdiag
                  rw [Bool.not_eq_eq_eq_not] at h1
                  simp [hdiag] at h1
                · obtain ⟨entry, hent, hprop⟩ := List.any_eq_true.mp h1
                  rw [← hlg] at hent
                  obtain ⟨d, hdone⟩ := hcomp entry hent
                  rw [hdone] at hprop
                  cases hprop

open Checker in
/-- Witness for C5: a non-existent pattern exits 1 with no diagnostics even
though the only requested analyzer runs despite errors. -/
theorem run_exit_status_characterization_witness :
    (checkerRun [noopAnalyzer] [Pattern.invalid "xyz"]).exitCode = 1 ∧
    (checkerRun [noopAnalyzer] [Pattern.invalid "xyz"]).diags = [] :=
  (run_exit_status_characterization [noopAnalyzer]
    [Pattern.invalid "xyz"]).2.2.2.2.1 "xyz" (List.mem_singleton_self _)

namespace Checker

/-- The executable overlap test decides the overlap relation. -/
theorem overlapCheck_iff (e1 e2 : TextEdit) :
    overlapCheck e1 e2 = true ↔ OverlapAt e1 e2 := by
  simp [overlapCheck, OverlapAt]

/-- The conflict scan accepts exactly the pairwise non-overlapping edit
lists. -/
theorem findConflict_none_iff (edits : List TextEdit) :
    findConflict edits = none ↔
      edits.Pairwise (fun e1 e2 => ¬ OverlapAt e1 e2 ∧ ¬ OverlapAt e2 e1) := by
  induction edits with
  | nil => simp [findConflict]
  | cons e rest ih =>
      simp only [findConflict]
      cases hf : rest.find? (fun e2 => overlapCheck e e2 || overlapCheck e2 e) with
      | some e2 =>
          constructor
          · intro h
            cases h
          · intro hp
            exfalso
            have hpred := List.find?_some hf
            have hmem := List.mem_of_find?_eq_some hf
            rw [List.pairwise_cons] at hp
            obtain ⟨hnov, -⟩ := hp
            rw [Bool.or_eq_true, overlapCheck_iff, overlapCheck_iff] at hpred
            rcases hpred with h1 | h1
            · exact (hnov e2 hmem).1 h1
            · exact (hnov e2 hmem).2 h1
      | none =>
          rw [List.find?_eq_none] at hf
          rw [List.pairwise_cons]
          constructor
          · intro h
            refine ⟨?_, ih.mp h⟩
            intro e2 he2
            have hp2 := hf e2 he2
            rw [Bool.or_eq_true, overlapCheck_iff, overlapCheck_iff] at hp2
            exact ⟨fun h1 => hp2 (Or.inl h1), fun h1 => hp2 (Or.inr h1)⟩
          · intro hp
            exact ih.mpr hp.2

/-- Two distinct overlapping edits make the conflict scan report a
conflict. -/
theorem findConflict_some_of_overlap (edits : List TextEdit)
    (i j : Nat) (hi : i < edits.length) (hj : j < edits.length) (hij : i ≠ j)
    (hov : OverlapAt (edits.get ⟨i, hi⟩) (edits.get ⟨j, hj⟩)) :
    ∃ pr, findConflict edits = some pr := by
  cases hfc : findConflict edits with
  | some pr => exact ⟨pr, rfl⟩
  | none =>
      exfalso
      have hpw := (findConflict_none_iff edits).mp hfc
      rw [List.pairwise_iff_getElem] at hpw
      rw [List.get_eq_getElem, List.get_eq_getElem] at hov
      rcases Nat.lt_or_ge i j with hlt | hge
      · exact (hpw i j hi hj hlt).1 hov
      · have hlt2 : j < i := lt_of_le_of_ne hge (Ne.symm hij)
        exact (hpw j i hj hi hlt2).2 hov

end Checker

open Checker in
/-- C6: a file whose selected edits contain two distinct overlapping edits
makes fix application for that file fail with a conflict error naming a
conflicting pair, and the on-disk entry keeps the file byte for byte
unmodified; every file without overlapping edits still has its fixes applied
independently. -/
theorem overlapping_edits_conflict_all_or_nothing
    (files : List SourceFile) (editsFor : String → List TextEdit)
    (sf : SourceFile) (hmem : sf ∈ files) :
    ((∃ i j, ∃ (hi : i < (editsFor sf.fname).length)
        (hj : j < (editsFor sf.fname).length), i ≠ j ∧
        OverlapAt ((editsFor sf.fname).get ⟨i, hi⟩)
          ((editsFor sf.fname).get ⟨j, hj⟩)) →
      ∃ pr, applyEditsToContent sf.content (editsFor sf.fname) = .error pr ∧
        (sf, some pr) ∈ applyFixesToFiles files editsFor) ∧
    ((¬ ∃ i j, ∃ (hi : i < (editsFor sf.fname).length)
        (hj : j < (editsFor sf.fname).length), i ≠ j ∧
        OverlapAt ((editsFor sf.fname).get ⟨i, hi⟩)
          ((editsFor sf.fname).get ⟨j, hj⟩)) →
      ∃ c, applyEditsToContent sf.content (editsFor sf.fname) = .ok c ∧
        (SourceFile.mk sf.fname c, none) ∈ applyFixesToFiles files editsFor) := by
  constructor
  · rintro ⟨i, j, hi, hj, hij, hov⟩
    obtain ⟨pr, hpr⟩ := findConflict_some_of_overlap _ i j hi hj hij hov
    have hap : applyEditsToContent sf.content (editsFor sf.fname) = .error pr := by
      simp [applyEditsToContent, hpr]
    refine ⟨pr, hap, ?_⟩
    unfold applyFixesToFiles
    refine List.mem_map.mpr ⟨sf, hmem, ?_⟩
    rw [hap]
  · intro hno
    have hpw : (editsFor sf.fname).Pairwise
        (fun e1 e2 => ¬ OverlapAt e1 e2 ∧ ¬ OverlapAt e2 e1) := by
      rw [List.pairwise_iff_getElem]
      intro i j hi hj hij
      constructor
      · intro hov
        refine hno ⟨i, j, hi, hj, Nat.ne_of_lt hij, ?_⟩
        rw [List.get_eq_getElem, List.get_eq_getElem]
        exact hov
      · intro hov
        refine hno ⟨j, i, hj, hi, Ne.symm (Nat.ne_of_lt hij), ?_⟩
        rw [List.get_eq_getElem, List.get_eq_getElem]
        exact hov
    have hfc : findConflict (editsFor sf.fname) = none :=
      (findConflict_none_iff _).mpr hpw
    have hap : applyEditsToContent sf.content (editsFor sf.fname) =
        .ok ((sortEdits (editsFor sf.fname)).foldr
          (fun e c => applyOne c e) sf.content) := by
      simp [applyEditsToContent, hfc]
    refine ⟨_, hap, ?_⟩
    unfold applyFixesToFiles
    refine List.mem_map.mpr ⟨sf, hmem, ?_⟩
    rw [hap]

open Checker in
/-- Witness for C6: two overlapping edits on one file produce a conflict and
leave the recorded file entry unchanged. -/
theorem overlapping_edits_conflict_all_or_nothing_witness :
    (applyEditsToContent "hello".toList
      [TextEdit.mk 0 3 "XY".toList, TextEdit.mk 1 2 "Z".toList]).isOk = false := by
  obtain ⟨pr, hpr, -⟩ :=
    (overlapping_edits_conflict_all_or_nothing
      [SourceFile.mk "a.go" "hello".toList]
      (fun _ => [TextEdit.mk 0 3 "XY".toList, TextEdit.mk 1 2 "Z".toList])
      (SourceFile.mk "a.go" "hello".toList) (List.mem_singleton_self _)).1
      ⟨0, 1, by decide, by decide, by decide, ⟨by decide, by decide⟩⟩
  rw [hpr]
  rfl

namespace Checker

/-- Unfolding of the rename scan at an identifier token. -/
theorem renameRunFrom_cons_ident (frm toS s : String) (ts : List Tok)
    (off : Nat) :
    renameRunFrom frm toS (.ident s :: ts) off =
      if s = frm then
        Diagnostic.mk off (off + s.length)
          ("renaming \"" ++ frm ++ "\" to \"" ++ toS ++ "\"")
          [TextEdit.mk off (off + s.length) toS.toList] ::
          renameRunFrom frm toS ts (off + s.length)
      else renameRunFrom frm toS ts (off + s.length) := rfl

/-- Unfolding of the rename scan at a non-identifier token. -/
theorem renameRunFrom_cons_other (frm toS s : String) (ts : List Tok)
    (off : Nat) :
    renameRunFrom frm toS (.other s :: ts) off =
      renameRunFrom frm toS ts (off + s.length) := rfl

/-- Unfolding of the token rewrite at an identifier token. -/
theorem renameTok_ident (frm toS s : String) :
    renameTok frm toS (.ident s) =
      if s = frm then .ident toS else .ident s := rfl

end Checker

open Checker in
/-- C7: running the identifier-rename analyzer (bar → baz) in fix mode on the
TestApplyFixes file rewrites exactly the `bar` identifiers to `baz`, leaving
every other byte unchanged — the fixed content is precisely the rendering of
the token sequence with only the matching identifier tokens renamed — and a
second run of the analyzer over the fixed tokens reports no diagnostics;
in general, after the rename rewrite the analyzer reports nothing whenever
the new name differs from the old. -/
theorem rename_fix_idempotent_detectable :
    applyRenameFixes "bar" "baz" testFileToks =
      .ok (renderToks (testFileToks.map (renameTok "bar" "baz"))) ∧
    renameRunFrom "bar" "baz" (testFileToks.map (renameTok "bar" "baz")) 0 = [] ∧
    (∀ (frm toS : String) (toks : List Tok) (off : Nat), frm ≠ toS →
      renameRunFrom frm toS (toks.map (renameTok frm toS)) off = []) := by
  refine ⟨rfl, rfl, ?_⟩
  intro frm toS toks off hne
  induction toks generalizing off with
  | nil => rfl
  | cons t ts ih =>
      cases t with
      | ident s =>
          by_cases hs : s = frm
          · rw [List.map_cons, renameTok_ident, if_pos hs,
              renameRunFrom_cons_ident, if_neg (fun h => hne h.symm)]
            exact ih _
          · rw [List.map_cons, renameTok_ident, if_neg hs,
              renameRunFrom_cons_ident, if_neg hs]
            exact ih _
      | other s =>
          rw [List.map_cons,
            show renameTok frm toS (.other s) = .other s from rfl,
            renameRunFrom_cons_other]
          exact ih _

open Checker in
/-- Witness for C7: a single renamed identifier is no longer reported. -/
theorem rename_fix_idempotent_detectable_witness :
    renameRunFrom "bar" "baz" ([Tok.ident "bar"].map (renameTok "bar" "baz")) 0 = [] :=
  rename_fix_idempotent_detectable.2.2 "bar" "baz" [Tok.ident "bar"] 0
    (by decide)

open Checker in
/-- C8: over an acyclic, well-formed import graph, a fact exported by
analyzer `x` while analyzing unit `a` is visible to a pass analyzing unit `b`
for analyzer `x` exactly when `b` transitively imports `a`: when it does, the
read returns whatever the store holds under (x, a, sym); when it does not,
the store rejects the read. -/
theorem fact_visible_iff_transitive_import
    (imp : Nat → List Nat) (n : Nat) (store : FactStore) (x b a : Nat)
    (sym : String)
    (hwf : ∀ u, ∀ i ∈ imp u, i < n) (hacyc : Acyclic imp) :
    (TransImports imp b a → readFact imp n store x b a sym =
      List.lookup (FactKey.mk x a sym) store.facts) ∧
    (¬ TransImports imp b a → readFact imp n store x b a sym = none) := by
  obtain ⟨order, hok⟩ :=
    schedule_ok imp n hwf hacyc (imp b) [] (fun r hr => hwf b r hr)
  obtain ⟨-, hmem, htopo, hreach, -⟩ := schedule_props imp n (imp b) [] order hok
  have hts : TopoSorted imp order := htopo TopoSorted.nil
  have hiff : ∀ z, z ∈ order ↔ ∃ rt ∈ imp b, Reaches imp rt z := by
    intro z
    constructor
    · intro hz
      rcases hreach z hz with h | h
      · exact absurd h (by simp)
      · exact h
    · rintro ⟨rt, hrt, hre⟩
      exact reaches_mem_of_closed imp order (topoSorted_closed imp order hts)
        rt z hre (hmem rt hrt)
  have htrans : TransImports imp b a ↔ a ∈ order := by
    rw [hiff a]
    constructor
    · intro h
      obtain ⟨c, hc, hcb⟩ := Relation.TransGen.head'_iff.mp h
      exact ⟨c, hc, hcb⟩
    · rintro ⟨rt, hrt, hre⟩
      exact Relation.TransGen.head'_iff.mpr ⟨rt, hrt, hre⟩
  constructor
  · intro ht
    simp only [readFact, hok]
    rw [if_pos (htrans.mp ht)]
  · intro hnt
    simp only [readFact, hok]
    rw [if_neg (fun hmem2 => hnt (htrans.mpr hmem2))]

open Checker in
/-- Witness for C8: with unit 1 importing unit 0, a pass on unit 1 reads the
fact exported at unit 0, while a pass on unit 0 cannot read a fact of
unit 1. -/
theorem fact_visible_iff_transitive_import_witness :
    readFact (fun u => if u = 1 then [0] else []) 2
      ⟨[(FactKey.mk 7 0 "S", "const")]⟩ 7 1 0 "S" =
      List.lookup (FactKey.mk 7 0 "S") [(FactKey.mk 7 0 "S", "const")] ∧
    readFact (fun u => if u = 1 then [0] else []) 2
      ⟨[(FactKey.mk 7 0 "S", "const")]⟩ 7 0 1 "S" = none := by
  have hwf : ∀ u, ∀ i ∈ (fun u => if u = 1 then [0] else []) u, i < 2 := by
    intro u i hi
    by_cases hu : u = 1
    · subst hu
      simp at hi
      omega
    · simp [hu] at hi
  have hacyc : Acyclic (fun u => if u = 1 then [0] else []) := by
    apply acyclic_of_rank _ (fun v => v)
    intro p q hq
    by_cases hp : p = 1
    · subst hp
      simp at hq
      subst hq
      decide
    · simp [hp] at hq
  have hedge : Requires (fun u => if u = 1 then [0] else []) 1 0 := by
    show (0 : Nat) ∈ if (1 : Nat) = 1 then [0] else []
    decide
  have hnot : ¬ TransImports (fun u => if u = 1 then [0] else []) 0 1 := by
    intro h
    obtain ⟨c, hc, -⟩ := Relation.TransGen.head'_iff.mp h
    revert hc
    show c ∈ (if (0 : Nat) = 1 then [0] else []) → False
    simp
  exact ⟨(fact_visible_iff_transitive_import _ 2 ⟨[(FactKey.mk 7 0 "S", "const")]⟩
      7 1 0 "S" hwf hacyc).1 (Relation.TransGen.single hedge),
    (fact_visible_iff_transitive_import _ 2 ⟨[(FactKey.mk 7 0 "S", "const")]⟩
      7 0 1 "S" hwf hacyc).2 hnot⟩
